import Mathlib

/-!
# Verification of rawspeed core decompressors

Shallow embedding of the rawspeed core components covered by the
specification: the Olympus predictive entropy decoder
(`decompressors/OlympusDecompressor.cpp`), the Fuji strip planner
(`decompressors/FujiDecompressor.h`), the lookup-table post-processor
(`common/TableLookUp.cpp`) and the aligned allocator
(`adt/AlignedAllocator.h`).

Machine integers are modelled as `Nat`/`Int` with explicit `% 2 ^ w`
truncation where the source relies on wrap-around; fallible operations
return `Except`.
-/

/-- Semantic error kinds of the specification (§7). The source throws
exceptions; we model each throw site with the kind the spec assigns it. -/
inductive DErr where
  | IoEof
  | TruncatedBitstream
  | CorruptHeader
  | InputRange
  | OutOfMemory
  | ConfigError
  deriving DecidableEq, Repr

/-! ## MSB bit reader

`BitStreamerMSB` is not among the provided source files; only its use sites
are. Modelled from the spec (§4.2): the byte slice is consumed
most-significant-bit first, `peek n` returns the next `n` bits
right-justified without consuming them, `skip n` discards, `get n` is
peek-then-skip, and end-of-stream while more bits are requested is a
`TruncatedBitstream` error. -/

/-- A bit-stream position: the underlying bits (as a total function,
MSB-first order), the total number of available bits, and the cursor. -/
structure BitStreamerMSB where
  bits : Nat → Bool
  lenBits : Nat
  pos : Nat

/-- Value of the `n` bits starting at `pos`, MSB-first: the bit at `pos`
is the most significant of the result. -/
def readBitsVal (f : Nat → Bool) (pos : Nat) : Nat → Nat
  | 0 => 0
  | n + 1 => 2 * readBitsVal f pos n + (if f (pos + n) then 1 else 0)

/-- Modelled from the spec: `peek(n)` returns the next `n` bits as a
right-justified unsigned integer, not consuming them; requesting bits past
end-of-stream is a `TruncatedBitstream` error. -/
def bsPeek (s : BitStreamerMSB) (n : Nat) : Except DErr Nat :=
  if s.pos + n ≤ s.lenBits then .ok (readBitsVal s.bits s.pos n)
  else .error .TruncatedBitstream

/-- Modelled from the spec: `skipBitsNoFill(n)` discards `n` bits (used
only after a successful `fill`/peek of at least that many bits). -/
def bsSkip (s : BitStreamerMSB) (n : Nat) : BitStreamerMSB :=
  { s with pos := s.pos + n }

/-- Modelled from the spec: `getBitsNoFill(n)` is peek-then-skip. -/
def bsGet (s : BitStreamerMSB) (n : Nat) : Except DErr (Nat × BitStreamerMSB) :=
  match bsPeek s n with
  | .error e => .error e
  | .ok v => .ok (v, bsSkip s n)

/-! ## Olympus decompressor: carry state and `parseCarry`

From `decompressors/OlympusDecompressor.cpp`. -/

/-- One column-parity carry triple `std::array<int, 3>` of
`OlympusDecompressorImpl`. -/
structure Carry where
  c0 : Int
  c1 : Int
  c2 : Int
  deriving DecidableEq, Repr

/-- `numActiveBits` (from `adt/Bit.h`, not among the provided sources).
Modelled from the spec: the number of active bits of an unsigned value,
i.e. the position of the highest set bit plus one; this is `Nat.size`. -/
def numActiveBits (v : Nat) : Nat := Nat.size v

/-- `extractHighBits(value, numBits, effectiveBitwidth)` (from
`adt/Bit.h`, not among the provided sources). Modelled from the spec:
the top `numBits` bits of the `effectiveBitwidth`-bit value, i.e. the
value shifted right by `effectiveBitwidth - numBits`. -/
def extractHighBits (value numBits effectiveBitwidth : Nat) : Nat :=
  value >>> (effectiveBitwidth - numBits)

/-- The `bittable` LUT of `OlympusDecompressorImpl`: for index `i`, the
smallest `high < 12` such that `extractHighBits(i, high, 11) & 1` is set,
saturating at `12`. -/
def bittable (i : Nat) : Nat :=
  match (List.range 12).find? (fun high => (extractHighBits i high 11) &&& 1 = 1) with
  | some high => min 12 high
  | none => 12

/-- The `nbits` value computed at the start of `parseCarry`:
`nbitsBias = (carry[2] < 3) ? 2 : 0`;
`nbits = max(numActiveBits(uint16_t(carry[0])) - nbitsBias, 2 + nbitsBias)`.
The `uint16_t` conversion is truncation modulo `2 ^ 16`. -/
def nbitsOf (carry : Carry) : Int :=
  let nbitsBias : Int := if carry.c2 < 3 then 2 else 0
  max ((numActiveBits ((carry.c0 % 65536).toNat) : Int) - nbitsBias) (2 + nbitsBias)

/-- The "Skip bytes used above or read bits" step of `parseCarry`: if the
table lookup saturated (`high == 12`), consume the 15 peeked bits, read
`16 - nbits` further bits and shift right by one to form `high`; else
consume `high + 1 + 3` bits and keep the table value. -/
def parseCarryHigh (s : BitStreamerMSB) (n : Nat) (b : Nat) :
    Except DErr (Nat × BitStreamerMSB) :=
  if bittable (b &&& 4095) = 12 then
    match bsGet (bsSkip s 15) (16 - n) with
    | .error e => .error e
    | .ok (v, s') => .ok (v >>> 1, s')
  else
    .ok (bittable (b &&& 4095), bsSkip s (bittable (b &&& 4095) + 1 + 3))

/-- `OlympusDecompressorImpl::parseCarry`. Returns the decoded residual
`(diff * 4) | low`, the updated carry triple, and the advanced bit stream.

Two translation notes, both forced by two's-complement bit tricks in the
source: `carry[0] ^ sign` with `sign ∈ {0, -1}` is `carry[0]` when
`sign = 0` and the bitwise NOT `-carry[0] - 1` when `sign = -1`; and
`(diff * 4) | low` equals `diff * 4 + low` because `low < 4` and the two
low bits of `diff * 4` are clear. `>> 5` on a signed int is an arithmetic
shift, i.e. flooring division by 32 (`Int.fdiv`). -/
def parseCarry (s : BitStreamerMSB) (carry : Carry) :
    Except DErr (Int × Carry × BitStreamerMSB) :=
  let nbits : Int := nbitsOf carry
  let n : Nat := nbits.toNat
  match bsPeek s 15 with
  | .error e => .error e
  | .ok b =>
    let sign : Int := if b >>> 14 = 1 then -1 else 0
    let low : Nat := (b >>> 12) &&& 3
    match parseCarryHigh s n b with
    | .error e => .error e
    | .ok (high, s1) =>
      match bsGet s1 n with
      | .error e => .error e
      | .ok (lowBits, s2) =>
        let c0 : Nat := (high <<< n) ||| lowBits
        let diff : Int := (if sign = -1 then -(c0 : Int) - 1 else (c0 : Int)) + carry.c1
        .ok (diff * 4 + (low : Int),
             ⟨(c0 : Int),
              Int.fdiv (diff * 3 + carry.c1) 32,
              if (c0 : Int) > 16 then 0 else carry.c2 + 1⟩,
             s2)

/-- The carry states reachable in a decode: each parity's triple starts at
`(0, 0, 0)` (`std::array<std::array<int, 3>, 2> acarry{{}};`) and is
mutated only by successful `parseCarry` calls, on arbitrary bit-stream
input. -/
inductive ReachableCarry : Carry → Prop where
  | init : ReachableCarry ⟨0, 0, 0⟩
  | step {s : BitStreamerMSB} {c : Carry} {d : Int} {c' : Carry}
      {s' : BitStreamerMSB} :
      ReachableCarry c → parseCarry s c = .ok (d, c', s') → ReachableCarry c'

/-- The inductive invariant of the carry state: `carry[0]` is non-negative,
and once `carry[2]` has been incremented (`carry[2] ≥ 1`), the very update
that incremented it also guaranteed `carry[0] ≤ 16`. -/
def CarryInv (c : Carry) : Prop := 0 ≤ c.c0 ∧ (1 ≤ c.c2 → c.c0 ≤ 16)

theorem parseCarry_ok_carry {s : BitStreamerMSB} {c : Carry} {d : Int}
    {c' : Carry} {s' : BitStreamerMSB}
    (h : parseCarry s c = .ok (d, c', s')) :
    ∃ c0 : Nat, c'.c0 = (c0 : Int) ∧
      c'.c2 = (if (c0 : Int) > 16 then 0 else c.c2 + 1) := by
  unfold parseCarry at h
  rcases hp : bsPeek s 15 with e | b
  · rw [hp] at h; simp at h
  · rw [hp] at h
    simp only at h
    rcases hh : parseCarryHigh s (nbitsOf c).toNat b with e | ⟨high, s1⟩
    · rw [hh] at h; simp at h
    · rw [hh] at h
      simp only at h
      rcases hg : bsGet s1 (nbitsOf c).toNat with e | ⟨lb, s2⟩
      · rw [hg] at h; simp at h
      · rw [hg] at h
        simp only [Except.ok.injEq, Prod.mk.injEq] at h
        refine ⟨(high <<< (nbitsOf c).toNat) ||| lb, ?_, ?_⟩
        · rw [← h.2.1]
        · rw [← h.2.1]

theorem carryInv_preserved {s : BitStreamerMSB} {c : Carry} {d : Int}
    {c' : Carry} {s' : BitStreamerMSB}
    (h : parseCarry s c = .ok (d, c', s')) : CarryInv c' := by
  obtain ⟨c0, hc0, hc2⟩ := parseCarry_ok_carry h
  constructor
  · rw [hc0]; exact Int.ofNat_nonneg c0
  · intro h1
    rw [hc2] at h1
    split at h1
    · omega
    · rw [hc0]; omega

theorem reachable_carryInv {c : Carry} (h : ReachableCarry c) : CarryInv c := by
  induction h with
  | init => exact ⟨by norm_num, fun h => absurd h (by norm_num)⟩
  | step _ hstep _ => exact carryInv_preserved hstep

/-- `numActiveBits` of a 16-bit-truncated value is at most 16. -/
theorem numActiveBits_u16_le (x : Int) : numActiveBits ((x % 65536).toNat) ≤ 16 := by
  unfold numActiveBits
  rw [Nat.size_le]
  have : (x % 65536).toNat < 65536 := by omega
  exact lt_of_lt_of_le this (by norm_num)

/-- C1: For every reachable Olympus carry state (each parity's triple
starts at `(0,0,0)` and is mutated only by `parseCarry` on arbitrary
bit-stream input), the value `nbits` computed at the start of every sample
decode satisfies `2 ≤ nbits ≤ 14`. No input can violate the bound, so in
particular no input can proceed past a violation. -/
theorem olympus_nbits_bounds (c : Carry) (h : ReachableCarry c) :
    2 ≤ nbitsOf c ∧ nbitsOf c ≤ 14 := by
  obtain ⟨hpos, h16⟩ := reachable_carryInv h
  unfold nbitsOf
  by_cases hc2 : c.c2 < 3
  · simp only [hc2, if_pos]
    constructor
    · exact le_trans (by norm_num) (le_max_right _ _)
    · have hle : numActiveBits ((c.c0 % 65536).toNat) ≤ 16 := numActiveBits_u16_le _
      rw [max_le_iff]
      constructor
      · have : (numActiveBits ((c.c0 % 65536).toNat) : Int) ≤ 16 := by
          exact_mod_cast hle
        omega
      · norm_num
  · simp only [hc2, if_neg, not_false_iff]
    have hc2' : 1 ≤ c.c2 := by omega
    have hc0 : c.c0 ≤ 16 := h16 hc2'
    have hsize : numActiveBits ((c.c0 % 65536).toNat) ≤ 5 := by
      unfold numActiveBits
      rw [Nat.size_le]
      have hx : (c.c0 % 65536).toNat < 32 := by omega
      exact lt_of_lt_of_le hx (by norm_num)
    constructor
    · exact le_trans (by norm_num) (le_max_right _ _)
    · rw [max_le_iff]
      constructor
      · have : (numActiveBits ((c.c0 % 65536).toNat) : Int) ≤ 5 := by exact_mod_cast hsize
        omega
      · norm_num

/-- C1 witness: the bound instantiated at the initial carry state. -/
theorem olympus_nbits_bounds_witness :
    2 ≤ nbitsOf ⟨0, 0, 0⟩ ∧ nbitsOf ⟨0, 0, 0⟩ ≤ 14 :=
  olympus_nbits_bounds ⟨0, 0, 0⟩ ReachableCarry.init

/-! ## Table lookup post-processor

From `common/TableLookUp.cpp`. -/

/-- `TABLE_MAX_ELTS`: how many different values `uint16_t` can represent. -/
def TABLE_MAX_ELTS : Nat := 65536

/-- `TABLE_SIZE = TABLE_MAX_ELTS * 2`: the flat width of one table row. -/
def TABLE_SIZE : Nat := 131072

/-- `clampBits(value, 16)` (from `adt/Bit.h`, not among the provided
sources). Modelled from the spec: clamp a signed value into the 16-bit
range `[0, 65535]`. -/
def clampBits16 (v : Int) : Nat := (max 0 (min v 65535)).toNat

/-- The table row produced by the body of `TableLookUp::setTable` after the
error checks, as a function from flat index within the row to stored value.
`prev` is the row's previous contents (all-zero at construction). In
non-dither mode indices `[0, TABLE_MAX_ELTS)` are written; in dither mode
each `i < TABLE_MAX_ELTS` stores a `(center, delta)` pair at `(2i, 2i+1)`. -/
def setTableRow (dither : Bool) (table : List Nat) (prev : Nat → Nat) :
    Nat → Nat :=
  let nfilled := table.length
  if !dither then
    fun i =>
      if i < TABLE_MAX_ELTS then
        (if i < nfilled then table.getD i 0 else table.getD (nfilled - 1) 0)
      else prev i
  else
    fun j =>
      let i := j / 2
      if i < TABLE_MAX_ELTS then
        if i < nfilled then
          let center : Int := table.getD i 0
          let lower0 : Int := if 0 < i then table.getD (i - 1) 0 else center
          let upper0 : Int := if i < nfilled - 1 then table.getD (i + 1) 0 else center
          let lower := min lower0 center
          let upper := max upper0 center
          let delta := upper - lower
          if j % 2 = 0 then clampBits16 (center - ((upper - lower + 2) / 4))
          else delta.toNat
        else
          if j % 2 = 0 then table.getD (nfilled - 1) 0 else 0
      else prev j

/-- `TableLookUp::setTable(ntable, table)`: reject a source vector longer
than `TABLE_MAX_ELTS`, reject `ntable > ntables`, otherwise build the row. -/
def setTable (ntables : Nat) (dither : Bool) (ntable : Nat) (table : List Nat)
    (prev : Nat → Nat) : Except DErr (Nat → Nat) :=
  if TABLE_MAX_ELTS < table.length then .error .InputRange
  else if ntables < ntable then .error .ConfigError
  else .ok (setTableRow dither table prev)

/-- `TableLookUp::getTable(n)`: reject `n > ntables`, otherwise return the
row `Array2DRef(tables.data(), TABLE_SIZE, ntables)[n]`, modelled by the
row's start offset `n * TABLE_SIZE` in the flat `tables` vector. -/
def getTable (ntables n : Nat) : Except DErr Nat :=
  if ntables < n then .error .ConfigError
  else .ok (n * TABLE_SIZE)

/-- C2: In non-dither mode, for every in-range table index and every source
vector `v` with `1 ≤ length ≤ 65536`, `setTable` succeeds and the built
table satisfies `T[i] = v[min(i, L-1)]` for every `i ∈ [0, 65536)`: all
65536 entries are written, entries past `L-1` repeating the last value. -/
theorem setTable_nondither_spec (v : List Nat) (ntables n : Nat)
    (prev : Nat → Nat) (h1 : 1 ≤ v.length) (h2 : v.length ≤ 65536)
    (hn : n ≤ ntables) :
    ∃ T, setTable ntables false n v prev = .ok T ∧
      ∀ i, i < 65536 → T i = v.getD (min i (v.length - 1)) 0 := by
  refine ⟨setTableRow false v prev, ?_, ?_⟩
  · unfold setTable TABLE_MAX_ELTS
    rw [if_neg (by omega), if_neg (by omega)]
  · intro i hi
    unfold setTableRow TABLE_MAX_ELTS
    simp only [Bool.not_false, if_pos hi, if_true]
    by_cases hlen : i < v.length
    · rw [if_pos hlen, Nat.min_eq_left (by omega)]
    · rw [if_neg hlen, Nat.min_eq_right (by omega)]

/-- C2 witness: a concrete two-entry source vector. -/
theorem setTable_nondither_spec_witness :
    ∃ T, setTable 1 false 0 [7, 9] (fun _ => 0) = .ok T ∧
      ∀ i, i < 65536 → T i = [7, 9].getD (min i 1) 0 :=
  setTable_nondither_spec [7, 9] 1 0 (fun _ => 0) (by norm_num) (by norm_num)
    (by norm_num)

/-- C10: `setTable(n, ·)` and `getTable(n)` raise an error exactly when
`n > ntables`; the boundary call `n = ntables` is accepted although the
row it designates lies outside the `ntables`-row table array — a flat
access `n * TABLE_SIZE + i` with `i < TABLE_SIZE` is in bounds for all `i`
if and only if `n < ntables`. -/
theorem tableLookUp_index_boundary (ntables n : Nat) (d : Bool) (v : List Nat)
    (prev : Nat → Nat) (hv : v.length ≤ TABLE_MAX_ELTS) :
    ((∃ e, setTable ntables d n v prev = .error e) ↔ ntables < n) ∧
    ((∃ e, getTable ntables n = .error e) ↔ ntables < n) ∧
    ((∀ i, i < TABLE_SIZE → n * TABLE_SIZE + i < ntables * TABLE_SIZE) ↔
      n < ntables) ∧
    (∀ i, ¬(ntables * TABLE_SIZE + i < ntables * TABLE_SIZE)) := by
  refine ⟨?_, ?_, ?_, ?_⟩
  · unfold setTable
    rw [if_neg (by omega)]
    by_cases h : ntables < n
    · rw [if_pos h]
      exact ⟨fun _ => h, fun _ => ⟨.ConfigError, rfl⟩⟩
    · rw [if_neg h]
      exact ⟨fun ⟨e, he⟩ => by simp at he, fun hc => absurd hc h⟩
  · unfold getTable
    by_cases h : ntables < n
    · rw [if_pos h]
      exact ⟨fun _ => h, fun _ => ⟨.ConfigError, rfl⟩⟩
    · rw [if_neg h]
      exact ⟨fun ⟨e, he⟩ => by simp at he, fun hc => absurd hc h⟩
  · unfold TABLE_SIZE
    constructor
    · intro hall
      have := hall 131071 (by norm_num)
      by_contra hlt
      have hle : ntables ≤ n := by omega
      have : ntables * 131072 ≤ n * 131072 := Nat.mul_le_mul_right _ hle
      omega
    · intro hlt i hi
      have : n + 1 ≤ ntables := hlt
      have h2 : (n + 1) * 131072 ≤ ntables * 131072 := Nat.mul_le_mul_right _ this
      omega
  · intro i
    omega

/-- C10 witness: the boundary index `n = ntables = 2` with a short source
vector: both calls are accepted yet the row is out of bounds. -/
theorem tableLookUp_index_boundary_witness :
    [5].length ≤ TABLE_MAX_ELTS ∧
    ¬(∃ e, setTable 2 false 2 [5] (fun _ => 0) = .error e) ∧
    ¬(∃ e, getTable 2 2 = .error e) ∧
    ¬(∀ i, i < TABLE_SIZE → 2 * TABLE_SIZE + i < 2 * TABLE_SIZE) := by
  have hv : [5].length ≤ TABLE_MAX_ELTS := by norm_num [TABLE_MAX_ELTS]
  obtain ⟨h1, h2, h3, _⟩ := tableLookUp_index_boundary 2 2 false [5] (fun _ => 0) hv
  refine ⟨hv, ?_, ?_, ?_⟩
  · intro hc
    have := h1.mp hc
    omega
  · intro hc
    have := h2.mp hc
    omega
  · intro hc
    have := h3.mp hc
    omega

/-! ## Fuji header and strip planner

From `decompressors/FujiDecompressor.h`. -/

/-- The fixed 16-byte big-endian Fuji header record (§3), plus the MCU
shape derived from `raw_type`. Fields are machine integers of the listed
widths; we carry them as `Nat`. -/
structure FujiHeader where
  signature : Nat
  version : Nat
  raw_type : Nat
  raw_bits : Nat
  raw_height : Nat
  raw_rounded_width : Nat
  raw_width : Nat
  block_size : Nat
  blocks_in_row : Nat
  total_lines : Nat
  deriving DecidableEq, Repr

/-- The MCU shape derived from `raw_type` (`FujiDecompressor.cpp` is not
among the provided sources). Modelled from the spec:
`0 → (2,6)`, other → `(1,6)`. -/
def fujiMCU (raw_type : Nat) : Nat × Nat :=
  if raw_type = 0 then (2, 6) else (1, 6)

/-- The header validity predicate exactly as the claim and spec state it:
`signature == 0x4953`, `raw_height > 0`, `raw_width > 0`,
`block_size > 0`, `blocks_in_row = ceil(raw_rounded_width / block_size)`,
`raw_rounded_width ≥ raw_width`, `block_size % MCU.x == 0`. -/
def fujiHeaderValid (h : FujiHeader) : Prop :=
  h.signature = 0x4953 ∧ 0 < h.raw_height ∧ 0 < h.raw_width ∧
  0 < h.block_size ∧
  h.blocks_in_row = (h.raw_rounded_width + h.block_size - 1) / h.block_size ∧
  h.raw_width ≤ h.raw_rounded_width ∧
  h.block_size % (fujiMCU h.raw_type).1 = 0

instance (h : FujiHeader) : Decidable (fujiHeaderValid h) := by
  unfold fujiHeaderValid
  infer_instance

/-- `FujiStrip::offsetX()`: where horizontally the strip starts,
`h.block_size * n`. -/
def stripOffsetX (h : FujiHeader) (n : Nat) : Nat := h.block_size * n

/-- `FujiStrip::width()`: `block_size` for every strip but the last;
the last strip gets `raw_width - offsetX()` (a signed `int` in the
source, so modelled in `Int`). -/
def stripWidth (h : FujiHeader) (n : Nat) : Int :=
  if n + 1 ≠ h.blocks_in_row then (h.block_size : Int)
  else (h.raw_width : Int) - (stripOffsetX h n : Int)

/-- Horizontal pixel range of a strip: `x ∈ [offsetX, offsetX + width)`. -/
def inStrip (h : FujiHeader) (n : Nat) (x : Nat) : Prop :=
  (stripOffsetX h n : Int) ≤ (x : Int) ∧
    (x : Int) < (stripOffsetX h n : Int) + stripWidth h n

instance (h : FujiHeader) (n x : Nat) : Decidable (inStrip h n x) := by
  unfold inStrip
  infer_instance

/-- A header satisfying the claim's validity predicate whose strips do
not partition `[0, raw_width)`: `raw_rounded_width = 10` with
`block_size = 5` gives `blocks_in_row = 2`, but `raw_width = 4` makes the
last strip's width `4 - 5 = -1`. -/
def fujiCexHeader : FujiHeader :=
  { signature := 0x4953, version := 1, raw_type := 1, raw_bits := 14,
    raw_height := 6, raw_rounded_width := 10, raw_width := 4,
    block_size := 5, blocks_in_row := 2, total_lines := 1 }

/-- C3 counterexample: the claimed validity predicate does not make every
strip width positive — `fujiCexHeader` is valid per the predicate, has
two strips, and its last strip has width `-1`. -/
theorem fuji_strip_partition_counterexample :
    fujiHeaderValid fujiCexHeader ∧ 1 < fujiCexHeader.blocks_in_row ∧
      stripWidth fujiCexHeader 1 ≤ 0 := by
  refine ⟨by decide, by decide, by decide⟩

/-- Every strip's pixel range is contained in its block
`[block_size * n, block_size * (n+1))`. -/
theorem inStrip_block_range (h : FujiHeader) (n x : Nat)
    (hrw : (h.raw_width : Int) ≤ (h.block_size : Int) * h.blocks_in_row)
    (hx : inStrip h n x) :
    (h.block_size : Int) * n ≤ (x : Int) ∧
      (x : Int) < (h.block_size : Int) * (n + 1) := by
  obtain ⟨hlo, hhi⟩ := hx
  unfold stripOffsetX at hlo hhi
  unfold stripWidth at hhi
  constructor
  · exact_mod_cast hlo
  · split at hhi
    · push_cast at hhi ⊢
      linarith
    · rename_i hlast
      have hbir : n + 1 = h.blocks_in_row := by omega
      push_cast at hhi ⊢
      unfold stripOffsetX at hhi
      push_cast at hhi
      rw [← hbir] at hrw
      push_cast at hrw
      linarith

/-- C3 (amended): with the two additional header conditions the real
header validation enforces — `block_size` divides `raw_rounded_width`
and `raw_rounded_width - raw_width < block_size` — the strips' horizontal
ranges are pairwise disjoint, every strip's width is positive, and their
union is exactly `[0, raw_width)`. -/
theorem fuji_strips_partition (h : FujiHeader) (hv : fujiHeaderValid h)
    (hdvd : h.block_size ∣ h.raw_rounded_width)
    (hslack : h.raw_rounded_width - h.raw_width < h.block_size) :
    (∀ n, n < h.blocks_in_row → 0 < stripWidth h n) ∧
    (∀ n m, n < h.blocks_in_row → m < h.blocks_in_row → n ≠ m →
      ∀ x : Nat, inStrip h n x → ¬inStrip h m x) ∧
    (∀ x : Nat, x < h.raw_width ↔ ∃ n, n < h.blocks_in_row ∧ inStrip h n x) := by
  obtain ⟨-, -, hrw0, hbs0, hbir, hle, -⟩ := hv
  obtain ⟨k, hk⟩ := hdvd
  have hbirk : h.blocks_in_row = k := by
    have e1 : h.block_size * k + h.block_size - 1 =
        h.block_size * k + (h.block_size - 1) := by omega
    rw [hbir, hk, e1, Nat.mul_add_div hbs0, Nat.div_eq_of_lt (by omega)]
    omega
  -- F1: block_size * blocks_in_row = raw_rounded_width
  have hF1 : h.block_size * h.blocks_in_row = h.raw_rounded_width := by
    rw [hbirk, ← hk]
  have hbir1 : 1 ≤ h.blocks_in_row := by
    by_contra hc
    have : h.blocks_in_row = 0 := by omega
    rw [this] at hF1
    omega
  -- F2: block_size * (blocks_in_row - 1) < raw_width
  have hF2 : h.block_size * (h.blocks_in_row - 1) < h.raw_width := by
    have hexp : h.block_size * (h.blocks_in_row - 1) + h.block_size =
        h.raw_rounded_width := by
      rw [← hF1]
      have : h.blocks_in_row - 1 + 1 = h.blocks_in_row := by omega
      calc h.block_size * (h.blocks_in_row - 1) + h.block_size
          = h.block_size * (h.blocks_in_row - 1 + 1) := by ring
        _ = h.block_size * h.blocks_in_row := by rw [this]
    omega
  have hrwle : (h.raw_width : Int) ≤ (h.block_size : Int) * h.blocks_in_row := by
    exact_mod_cast le_trans hle (le_of_eq hF1.symm)
  -- positivity
  have hpos : ∀ n, n < h.blocks_in_row → 0 < stripWidth h n := by
    intro n hn
    unfold stripWidth stripOffsetX
    split
    · exact_mod_cast hbs0
    · rename_i hlast
      have hn1 : n = h.blocks_in_row - 1 := by omega
      have : h.block_size * n < h.raw_width := by rw [hn1]; exact hF2
      push_cast
      have := (Int.ofNat_lt).mpr this
      push_cast at this
      linarith
  refine ⟨hpos, ?_, ?_⟩
  · -- disjointness
    intro n m hn hm hne x hxn hxm
    obtain ⟨hn1, hn2⟩ := inStrip_block_range h n x hrwle hxn
    obtain ⟨hm1, hm2⟩ := inStrip_block_range h m x hrwle hxm
    rcases Nat.lt_or_ge n m with hlt | hge
    · have : (h.block_size : Int) * (n + 1) ≤ (h.block_size : Int) * m := by
        apply mul_le_mul_of_nonneg_left _ (by positivity)
        exact_mod_cast hlt
      linarith
    · have hlt : m < n := by omega
      have : (h.block_size : Int) * (m + 1) ≤ (h.block_size : Int) * n := by
        apply mul_le_mul_of_nonneg_left _ (by positivity)
        exact_mod_cast hlt
      linarith
  · -- coverage
    intro x
    constructor
    · intro hx
      refine ⟨x / h.block_size, ?_, ?_, ?_⟩
      · -- index in range
        have hdm := Nat.div_add_mod x h.block_size
        have hmod := Nat.mod_lt x hbs0
        have hxlt : x < h.block_size * h.blocks_in_row := by
          have : x < h.raw_rounded_width := by omega
          omega
        have : h.block_size * (x / h.block_size) ≤ x := by omega
        have hbn : h.block_size * (x / h.block_size) <
            h.block_size * h.blocks_in_row := by omega
        exact Nat.lt_of_mul_lt_mul_left hbn
      · -- lower bound
        unfold stripOffsetX
        have h1 : x / h.block_size * h.block_size ≤ x :=
          Nat.div_mul_le_self x h.block_size
        have : h.block_size * (x / h.block_size) ≤ x := by
          rw [Nat.mul_comm]; exact h1
        exact_mod_cast this
      · -- upper bound
        unfold stripWidth stripOffsetX
        split
        · have hdm := Nat.div_add_mod x h.block_size
          have hmod := Nat.mod_lt x hbs0
          have : x < h.block_size * (x / h.block_size) + h.block_size := by
            omega
          push_cast
          have := (Int.ofNat_lt).mpr this
          push_cast at this
          linarith
        · push_cast
          have := (Int.ofNat_lt).mpr hx
          push_cast at this
          linarith
    · rintro ⟨n, hn, hxs⟩
      obtain ⟨h1, h2⟩ := inStrip_block_range h n x hrwle hxs
      by_cases hlast : n + 1 = h.blocks_in_row
      · obtain ⟨-, hhi⟩ := hxs
        unfold stripWidth stripOffsetX at hhi
        rw [if_neg (by omega)] at hhi
        push_cast at hhi
        have : (x : Int) < (h.raw_width : Int) := by linarith
        exact_mod_cast this
      · have hn1 : n + 1 ≤ h.blocks_in_row - 1 := by omega
        have hmono : h.block_size * (n + 1) ≤
            h.block_size * (h.blocks_in_row - 1) :=
          Nat.mul_le_mul_left _ hn1
        have hlt : (x : Int) < (h.block_size : Int) * (n + 1) := h2
        have : (h.block_size : Int) * (n + 1) ≤
            (h.block_size : Int) * (h.blocks_in_row - 1 : Nat) := by
          exact_mod_cast hmono
        have hF2' : ((h.block_size * (h.blocks_in_row - 1) : Nat) : Int) <
            (h.raw_width : Int) := by exact_mod_cast hF2
        push_cast at hF2' this
        have : (x : Int) < (h.raw_width : Int) := by linarith
        exact_mod_cast this

/-- A concrete header satisfying the amended validity conditions:
`block_size = 5` divides `raw_rounded_width = 10`, and
`raw_rounded_width - raw_width = 2 < 5`. -/
def fujiGoodHeader : FujiHeader :=
  { signature := 0x4953, version := 1, raw_type := 1, raw_bits := 14,
    raw_height := 6, raw_rounded_width := 10, raw_width := 8,
    block_size := 5, blocks_in_row := 2, total_lines := 1 }

/-- C3 amended witness: the partition property holds for
`fujiGoodHeader`. -/
theorem fuji_strips_partition_witness :
    fujiHeaderValid fujiGoodHeader ∧
    (∀ n, n < 2 → 0 < stripWidth fujiGoodHeader n) := by
  have hv : fujiHeaderValid fujiGoodHeader := by decide
  obtain ⟨hpos, -, -⟩ := fuji_strips_partition _ hv (by decide) (by decide)
  exact ⟨hv, fun n hn => hpos n hn⟩

/-- The claim's phrasing of the strip width: `block_size` when
`n < blocks_in_row - 1`, else `raw_width - n * block_size`. -/
def stripWidthSpec (h : FujiHeader) (n : Nat) : Int :=
  if n < h.blocks_in_row - 1 then (h.block_size : Int)
  else (h.raw_width : Int) - (n : Int) * (h.block_size : Int)

/-- C7: for every header and strip index `n < blocks_in_row`, the source's
`FujiStrip::width()` equals the claimed formula. -/
theorem stripWidth_eq_spec (h : FujiHeader) (n : Nat)
    (hn : n < h.blocks_in_row) : stripWidth h n = stripWidthSpec h n := by
  unfold stripWidth stripWidthSpec stripOffsetX
  by_cases hlast : n + 1 = h.blocks_in_row
  · rw [if_neg (by omega), if_neg (by omega)]
    push_cast
    ring
  · rw [if_pos (by omega), if_pos (by omega)]

/-- C7 witness: the last strip of the two-strip header `fujiGoodHeader`. -/
theorem stripWidth_eq_spec_witness :
    (1 : Nat) < fujiGoodHeader.blocks_in_row ∧
      stripWidth fujiGoodHeader 1 = stripWidthSpec fujiGoodHeader 1 :=
  ⟨by decide, stripWidth_eq_spec fujiGoodHeader 1 (by decide)⟩

/-! ## Olympus decompressor construction (dimension validation)

From `OlympusDecompressor::OlympusDecompressor`. -/

/-- The element type of a raw image buffer; this core uses `UINT16`. -/
inductive RawImageType where
  | UINT16
  | F32
  deriving DecidableEq, Repr

/-- The validation performed by the `OlympusDecompressor` constructor:
reject unexpected component count / data type, then reject dimensions
unless `w` and `h` are positive, even, and within the caps. The dimension
throw is the spec's `InputRange` kind. -/
def olympusConstruct (cpp : Nat) (dt : RawImageType) (bpp : Nat)
    (w h : Nat) : Except DErr Unit :=
  if cpp ≠ 1 ∨ dt ≠ RawImageType.UINT16 ∨ bpp ≠ 2 then .error .ConfigError
  else if w = 0 ∨ h = 0 ∨ w % 2 ≠ 0 ∨ h % 2 ≠ 0 ∨ 10400 < w ∨ 7792 < h then
    .error .InputRange
  else .ok ()

/-- C5: constructing an Olympus decompressor for a single-component u16
image fails with `InputRange` iff the dimensions violate
`W > 0 ∧ H > 0 ∧ W even ∧ H even ∧ W ≤ 10400 ∧ H ≤ 7792`; in particular
`W = 10402, H = 2` fails, and every valid-dimension image is accepted. -/
theorem olympusConstruct_inputRange_iff :
    (∀ w h : Nat,
      olympusConstruct 1 RawImageType.UINT16 2 w h = .error .InputRange ↔
        ¬(0 < w ∧ 0 < h ∧ w % 2 = 0 ∧ h % 2 = 0 ∧ w ≤ 10400 ∧ h ≤ 7792)) ∧
    olympusConstruct 1 RawImageType.UINT16 2 10402 2 = .error .InputRange ∧
    (∀ w h : Nat,
      (0 < w ∧ 0 < h ∧ w % 2 = 0 ∧ h % 2 = 0 ∧ w ≤ 10400 ∧ h ≤ 7792) →
        olympusConstruct 1 RawImageType.UINT16 2 w h = .ok ()) := by
  have hbase : ∀ w h : Nat,
      olympusConstruct 1 RawImageType.UINT16 2 w h =
        if w = 0 ∨ h = 0 ∨ w % 2 ≠ 0 ∨ h % 2 ≠ 0 ∨ 10400 < w ∨ 7792 < h then
          .error .InputRange
        else .ok () := by
    intro w h
    unfold olympusConstruct
    rw [if_neg (by simp)]
  refine ⟨?_, ?_, ?_⟩
  · intro w h
    rw [hbase]
    by_cases hc : w = 0 ∨ h = 0 ∨ w % 2 ≠ 0 ∨ h % 2 ≠ 0 ∨ 10400 < w ∨ 7792 < h
    · rw [if_pos hc]
      constructor
      · intro _; omega
      · intro _; rfl
    · rw [if_neg hc]
      constructor
      · intro he; simp at he
      · intro hn; exfalso; apply hn; omega
  · rw [hbase]; rw [if_pos (by omega)]
  · intro w h hvalid
    rw [hbase]; rw [if_neg (by omega)]

/-! ## Olympus predictor `getPred`

From `OlympusDecompressorImpl::getPred`. The output buffer is modelled as
a total function `(row, col) → Nat` of stored `uint16_t` values. -/

/-- `OlympusDecompressorImpl::getPred(out, row, col)`. `std::signbit` on an
`int` converted to floating point is exactly `· < 0`, and `(left + up) >> 1`
on the sum of two non-negative stored values is flooring division by 2. -/
def getPred (out : Nat → Nat → Nat) (row col : Nat) : Int :=
  if row < 2 ∧ col < 2 then 0
  else if row < 2 then (out row (col - 2) : Int)
  else if col < 2 then (out (row - 2) col : Int)
  else
    let left : Int := out row (col - 2)
    let up : Int := out (row - 2) col
    let leftUp : Int := out (row - 2) (col - 2)
    let leftMinusNw : Int := left - leftUp
    let upMinusNw : Int := up - leftUp
    if ¬((leftMinusNw < 0) ↔ (upMinusNw < 0)) ∧
        (leftMinusNw ≠ 0 ∧ upMinusNw ≠ 0) then
      if 32 < |leftMinusNw| ∨ 32 < |upMinusNw| then left + upMinusNw
      else (left + up) / 2
    else if |upMinusNw| < |leftMinusNw| then left else up

/-- The predictor exactly as the claim words it: the sign-difference
condition is phrased as "dL and dU have different signs and both are
non-zero", i.e. one strictly negative and the other strictly positive. -/
def getPredSpec (out : Nat → Nat → Nat) (row col : Nat) : Int :=
  if row < 2 ∧ col < 2 then 0
  else if row < 2 then (out row (col - 2) : Int)
  else if col < 2 then (out (row - 2) col : Int)
  else
    let left : Int := out row (col - 2)
    let up : Int := out (row - 2) col
    let leftUp : Int := out (row - 2) (col - 2)
    let dL : Int := left - leftUp
    let dU : Int := up - leftUp
    if (dL < 0 ∧ 0 < dU) ∨ (0 < dL ∧ dU < 0) then
      if 32 < |dL| ∨ 32 < |dU| then left + dU
      else (left + up) / 2
    else if |dU| < |dL| then left else up

/-- C4: the source predictor agrees with the claim's description of it at
every buffer state and position. -/
theorem getPred_eq_spec (out : Nat → Nat → Nat) (row col : Nat) :
    getPred out row col = getPredSpec out row col := by
  unfold getPred getPredSpec
  by_cases h1 : row < 2 ∧ col < 2
  · rw [if_pos h1, if_pos h1]
  · rw [if_neg h1, if_neg h1]
    by_cases h2 : row < 2
    · rw [if_pos h2, if_pos h2]
    · rw [if_neg h2, if_neg h2]
      by_cases h3 : col < 2
      · rw [if_pos h3, if_pos h3]
      · rw [if_neg h3, if_neg h3]
        simp only
        have hcond :
            (¬(((out row (col - 2) : Int) - out (row - 2) (col - 2) < 0) ↔
                ((out (row - 2) col : Int) - out (row - 2) (col - 2) < 0)) ∧
              ((out row (col - 2) : Int) - out (row - 2) (col - 2) ≠ 0 ∧
                (out (row - 2) col : Int) - out (row - 2) (col - 2) ≠ 0)) ↔
            (((out row (col - 2) : Int) - out (row - 2) (col - 2) < 0 ∧
                0 < (out (row - 2) col : Int) - out (row - 2) (col - 2)) ∨
              (0 < (out row (col - 2) : Int) - out (row - 2) (col - 2) ∧
                (out (row - 2) col : Int) - out (row - 2) (col - 2) < 0)) := by
          omega
        by_cases hc : ((out row (col - 2) : Int) - out (row - 2) (col - 2) < 0 ∧
            0 < (out (row - 2) col : Int) - out (row - 2) (col - 2)) ∨
            (0 < (out row (col - 2) : Int) - out (row - 2) (col - 2) ∧
              (out (row - 2) col : Int) - out (row - 2) (col - 2) < 0)
        · rw [if_pos (hcond.mpr hc), if_pos hc]
        · rw [if_neg (fun hx => hc (hcond.mp hx)), if_neg hc]

/-! ## Aligned allocator

From `adt/AlignedAllocator.h`. -/

/-- `roundUp(value, multiple)` (from `common/Common.h`, not among the
provided sources). Modelled from the spec: pad a byte count up to the next
multiple of the alignment. -/
def roundUp (value multiple : Nat) : Nat :=
  if multiple = 0 then value else ((value + multiple - 1) / multiple) * multiple

/-- `impl::alignedMalloc(size, alignment)`. The underlying platform
allocator is abstracted by `os`: `none` when the platform call fails,
`some p` for a successful allocation at (non-null, aligned) address `p`.
Under `FUZZING_BUILD_MODE_UNSAFE_FOR_PRODUCTION`, a request of more than
`2UL << 30UL = 2^31` bytes returns null before asking the platform. -/
def alignedMalloc (fuzz : Bool) (os : Option Nat) (size : Nat) : Option Nat :=
  if fuzz ∧ 2 ^ 31 < size then none else os

/-- `AlignedAllocator::allocate(numElts)`: compute the padded byte count,
call `impl::alignedMalloc`, and throw `OutOfMemory` ("Out of memory while
trying to allocate ...") exactly when it returned null. -/
def allocatorAllocate (fuzz : Bool) (os : Option Nat) (sizeofT numElts alignment : Nat) :
    Except DErr Nat :=
  match alignedMalloc fuzz os (roundUp (sizeofT * numElts) alignment) with
  | none => .error .OutOfMemory
  | some r => .ok r

/-- C8: `allocate` raises `OutOfMemory` exactly when the underlying aligned
allocation yields null; under fuzzing mode every request whose padded byte
size exceeds `2^31` bytes yields null and therefore raises `OutOfMemory`;
a successful allocation returns the platform's non-null pointer, aligned to
the requested alignment. The hypothesis `hos` is the model of the platform
allocator's contract (the source `invariant(isAligned(ptr, alignment))`
plus non-nullness of a successful allocation). -/
theorem allocatorAllocate_spec (fuzz : Bool) (os : Option Nat)
    (sizeofT numElts alignment : Nat)
    (hos : ∀ p, os = some p → p ≠ 0 ∧ p % alignment = 0) :
    (allocatorAllocate fuzz os sizeofT numElts alignment = .error .OutOfMemory ↔
      alignedMalloc fuzz os (roundUp (sizeofT * numElts) alignment) = none) ∧
    (fuzz = true → 2 ^ 31 < roundUp (sizeofT * numElts) alignment →
      allocatorAllocate fuzz os sizeofT numElts alignment = .error .OutOfMemory) ∧
    (∀ p, allocatorAllocate fuzz os sizeofT numElts alignment = .ok p →
      p ≠ 0 ∧ p % alignment = 0) := by
  refine ⟨?_, ?_, ?_⟩
  · unfold allocatorAllocate
    rcases hm : alignedMalloc fuzz os (roundUp (sizeofT * numElts) alignment) with _ | p
    · simp [hm]
    · simp [hm]
  · intro hf hsz
    unfold allocatorAllocate
    have hm : alignedMalloc fuzz os (roundUp (sizeofT * numElts) alignment) = none := by
      unfold alignedMalloc
      rw [if_pos ⟨hf, hsz⟩]
    rw [hm]
  · intro p hp
    unfold allocatorAllocate at hp
    rcases hm : alignedMalloc fuzz os (roundUp (sizeofT * numElts) alignment) with _ | q
    · rw [hm] at hp; simp at hp
    · rw [hm] at hp
      simp only [Except.ok.injEq] at hp
      have hq : os = some q := by
        unfold alignedMalloc at hm
        split at hm
        · simp at hm
        · exact hm
      exact hp ▸ hos q hq

/-- C8 witness: a concrete over-2-GiB request under fuzzing mode fails
with `OutOfMemory`, with a platform model satisfying the contract. -/
theorem allocatorAllocate_spec_witness :
    (∀ p, (some 64 : Option Nat) = some p → p ≠ 0 ∧ p % 64 = 0) ∧
      allocatorAllocate true (some 64) 2 (2 ^ 31) 64 = .error .OutOfMemory := by
  have hos : ∀ p, (some 64 : Option Nat) = some p → p ≠ 0 ∧ p % 64 = 0 := by
    intro p hp
    simp only [Option.some.injEq] at hp
    omega
  refine ⟨hos, ?_⟩
  obtain ⟨-, h2, -⟩ := allocatorAllocate_spec true (some 64) 2 (2 ^ 31) 64 hos
  exact h2 rfl (by norm_num [roundUp])

/-- A heap of live allocations, as the set of allocated addresses.
`impl::alignedFree(ptr)` forwards to `free(ptr)`; by the C standard,
`free` of a null pointer is a no-op, otherwise the allocation at `ptr`
is released. -/
def alignedFree (ptr : Nat) (heap : Nat → Bool) : Nat → Bool :=
  if ptr = 0 then heap else fun q => if q = ptr then false else heap q

/-- `AlignedAllocator::deallocate(p, n)`: the source states the
preconditions `invariant(p)` (non-null pointer) and `invariant(n > 0)`
before forwarding to `impl::alignedFree`. A call violating an `invariant`
is a contract violation (it aborts in checked builds), modelled as a
`ConfigError`-kind failure. -/
def allocatorDeallocate (p n : Nat) (heap : Nat → Bool) :
    Except DErr (Nat → Bool) :=
  if p = 0 then .error .ConfigError
  else if n = 0 then .error .ConfigError
  else .ok (alignedFree p heap)

/-- C9 counterexample: at the `AlignedAllocator::deallocate` level a null
pointer is not permitted — the call trips `invariant(p)` instead of being
a no-op, so the claim "calling the aligned allocator's deallocation with a
null pointer is permitted" is false on the code. -/
theorem deallocate_null_counterexample :
    allocatorDeallocate 0 1 (fun _ => false) = .error .ConfigError := rfl

/-- C9 (amended): the underlying `impl::alignedFree` is idempotent on
null — freeing a null pointer leaves the heap unchanged, repeated any
number of times — while `AlignedAllocator::deallocate` itself requires a
non-null pointer (`invariant(p)`). -/
theorem alignedFree_null_idempotent (heap : Nat → Bool) (k : Nat) :
    (alignedFree 0)^[k] heap = heap ∧
      (∀ p n, allocatorDeallocate p n heap = .ok (alignedFree p heap) ↔
        (p ≠ 0 ∧ n ≠ 0)) := by
  constructor
  · induction k with
    | zero => rfl
    | succ m ih =>
      rw [Function.iterate_succ_apply]
      have h0 : alignedFree 0 heap = heap := by
        unfold alignedFree
        rw [if_pos rfl]
      rw [h0, ih]
  · intro p n
    unfold allocatorDeallocate
    by_cases hp : p = 0
    · rw [if_pos hp]
      constructor
      · intro hc; simp at hc
      · intro hc; exact absurd hp hc.1
    · rw [if_neg hp]
      by_cases hn : n = 0
      · rw [if_pos hn]
        constructor
        · intro hc; simp at hc
        · intro hc; exact absurd hn hc.2
      · rw [if_neg hn]
        exact ⟨fun _ => ⟨hp, hn⟩, fun _ => rfl⟩

/-! ## Olympus frame decode

From `OlympusDecompressorImpl::decompressRow` / `decompress`. The output
image is modelled as a total function `(row, col) → Nat` holding stored
`uint16_t` values; a write is a pointwise functional update. -/

/-- Write `v` at `(row, col)` of the output view. -/
def updOut (out : Nat → Nat → Nat) (row col v : Nat) : Nat → Nat → Nat :=
  fun r c => if r = row ∧ c = col then v else out r c

/-- One sample of `decompressRow`'s inner loop:
`diff = parseCarry(bits, carry); pred = getPred(out, row, col);
out(row, col) = implicit_cast<uint16_t>(pred + diff)` — the `uint16_t`
cast is reduction modulo `2 ^ 16`. -/
def decodeSample (out : Nat → Nat → Nat) (s : BitStreamerMSB) (carry : Carry)
    (row col : Nat) : Except DErr ((Nat → Nat → Nat) × Carry × BitStreamerMSB) :=
  match parseCarry s carry with
  | .error e => .error e
  | .ok (diff, carry', s') =>
    .ok (updOut out row col ((getPred out row col + diff) % 65536).toNat,
         carry', s')

/-- The state threaded through one row: the output view, the bit stream,
and the two column-parity carries `acarry[0]`, `acarry[1]`. -/
structure RowState where
  out : Nat → Nat → Nat
  s : BitStreamerMSB
  carryEven : Carry
  carryOdd : Carry

/-- One group of `decompressRow`: the samples at columns `2 * group`
(parity 0) and `2 * group + 1` (parity 1). -/
def decodeGroup (row g : Nat) (st : RowState) : Except DErr RowState :=
  match decodeSample st.out st.s st.carryEven row (2 * g) with
  | .error e => .error e
  | .ok (out1, cE, s1) =>
    match decodeSample out1 s1 st.carryOdd row (2 * g + 1) with
    | .error e => .error e
    | .ok (out2, cO, s2) => .ok ⟨out2, s2, cE, cO⟩

/-- The group loop of `decompressRow`, `m` groups remaining starting at
group index `g`. -/
def rowGroups (row g : Nat) : Nat → RowState → Except DErr RowState
  | 0, st => .ok st
  | m + 1, st =>
    match decodeGroup row g st with
    | .error e => .error e
    | .ok st' => rowGroups row (g + 1) m st'

/-- `OlympusDecompressorImpl::decompressRow`: both carries reset to zero,
then `numGroups = width / 2` groups are decoded left to right. -/
def decompressRow (W row : Nat) (out : Nat → Nat → Nat) (s : BitStreamerMSB) :
    Except DErr RowState :=
  rowGroups row 0 (W / 2) ⟨out, s, ⟨0, 0, 0⟩, ⟨0, 0, 0⟩⟩

/-- The row loop of `decompress`, `k` rows remaining starting at `row`;
also returns the final carry pair of every decoded row, in order, so the
end-of-row carry state is observable. -/
def rowsLoop (W row : Nat) :
    Nat → (Nat → Nat → Nat) → BitStreamerMSB →
      Except DErr ((Nat → Nat → Nat) × BitStreamerMSB × List (Carry × Carry))
  | 0, out, s => .ok (out, s, [])
  | k + 1, out, s =>
    match decompressRow W row out s with
    | .error e => .error e
    | .ok st =>
      match rowsLoop W (row + 1) k st.out st.s with
      | .error e => .error e
      | .ok (outF, sF, rest) =>
        .ok (outF, sF, (st.carryEven, st.carryOdd) :: rest)

/-- MSB-first bit `i` of a byte sequence: bit `7 - i % 8` of byte `i / 8`. -/
def byteBits (bytes : Nat → Nat) : Nat → Bool :=
  fun i => (bytes (i / 8)) >>> (7 - i % 8) &&& 1 == 1

/-- `OlympusDecompressorImpl::decompress`: skip the 7 prefix bytes
(`input.skipBytes(7)` underflows with the spec's `IoEof` on shorter
input), build an MSB bit reader over the remaining `len - 7` bytes, and
decode all `H` rows in order. -/
def olympusDecompress (W H : Nat) (out0 : Nat → Nat → Nat) (bytes : Nat → Nat)
    (len : Nat) : Except DErr ((Nat → Nat → Nat) × List (Carry × Carry)) :=
  if len < 7 then .error .IoEof
  else
    match rowsLoop W 0 H out0
        ⟨byteBits (fun i => bytes (7 + i)), 8 * (len - 7), 0⟩ with
    | .error e => .error e
    | .ok (outF, _, carries) => .ok (outF, carries)

/-! Evaluation of the decoder on the all-zero bit stream. -/

theorem readBitsVal_zero (pos : Nat) : ∀ n, readBitsVal (fun _ => false) pos n = 0 := by
  intro n
  induction n with
  | zero => rfl
  | succ m ih =>
    unfold readBitsVal
    rw [ih]
    simp

theorem bsPeek_zero (L p n : Nat) (h : p + n ≤ L) :
    bsPeek ⟨fun _ => false, L, p⟩ n = .ok 0 := by
  unfold bsPeek
  rw [if_pos h, readBitsVal_zero]

theorem bsGet_zero (L p n : Nat) (h : p + n ≤ L) :
    bsGet ⟨fun _ => false, L, p⟩ n = .ok (0, ⟨fun _ => false, L, p + n⟩) := by
  unfold bsGet
  rw [bsPeek_zero L p n h]
  rfl

/-- On the all-zero carry, `nbits` is `4` while `carry[2] < 3` and `2`
afterwards. -/
theorem nbitsOf_zero (k : Int) :
    nbitsOf ⟨0, 0, k⟩ = if k < 3 then 4 else 2 := by
  unfold nbitsOf numActiveBits
  have h0 : (((0 : Int) % 65536).toNat) = 0 := rfl
  by_cases hk : k < 3
  · rw [if_pos hk, if_pos hk, h0, Nat.size_zero]
    decide
  · rw [if_neg hk, if_neg hk, h0, Nat.size_zero]
    decide

/-- `parseCarry` on the all-zero stream from a carry `(0, 0, k)`: the
peeked 15 bits are zero, the table saturates (`bittable 0 = 12`), the
extra `16 - nbits` bits and the `nbits` low bits are zero, so the sample
consumes exactly `15 + (16 - nbits) + nbits = 31` bits and yields residual
`0` with new carry `(0, 0, k + 1)`. -/
theorem parseCarry_zero (L p : Nat) (k : Int) (h : p + 31 ≤ L) :
    parseCarry ⟨fun _ => false, L, p⟩ ⟨0, 0, k⟩ =
      .ok (0, ⟨0, 0, k + 1⟩, ⟨fun _ => false, L, p + 31⟩) := by
  have hn16 : (nbitsOf ⟨0, 0, k⟩).toNat ≤ 16 := by
    rw [nbitsOf_zero]
    by_cases hk : k < 3
    · rw [if_pos hk]; decide
    · rw [if_neg hk]; decide
  unfold parseCarry
  rw [bsPeek_zero L p 15 (by omega)]
  simp only
  have hb : bittable (0 &&& 4095) = 12 := by decide
  have hhigh : parseCarryHigh ⟨fun _ => false, L, p⟩ (nbitsOf ⟨0, 0, k⟩).toNat 0 =
      .ok (0, ⟨fun _ => false, L,
        p + 15 + (16 - (nbitsOf ⟨0, 0, k⟩).toNat)⟩) := by
    unfold parseCarryHigh
    rw [if_pos hb]
    unfold bsSkip
    simp only
    rw [bsGet_zero L (p + 15) (16 - (nbitsOf ⟨0, 0, k⟩).toNat) (by omega)]
    rfl
  rw [hhigh]
  simp only
  rw [bsGet_zero L (p + 15 + (16 - (nbitsOf ⟨0, 0, k⟩).toNat))
    (nbitsOf ⟨0, 0, k⟩).toNat (by omega)]
  simp only
  have hpos : p + 15 + (16 - (nbitsOf ⟨0, 0, k⟩).toNat) +
      (nbitsOf ⟨0, 0, k⟩).toNat = p + 31 := by omega
  rw [hpos]
  norm_num [Int.fdiv]

/-- The raster-order write region: every cell strictly before `(row, col)`
in raster order (and within the image's `W` columns) holds `0`. -/
def ZeroUpto (out : Nat → Nat → Nat) (W row col : Nat) : Prop :=
  ∀ r c, c < W → (r < row ∨ (r = row ∧ c < col)) → out r c = 0

theorem zeroUpto_updOut {out : Nat → Nat → Nat} {W row col : Nat}
    (hz : ZeroUpto out W row col) :
    ZeroUpto (updOut out row col 0) W row (col + 1) := by
  intro r c hc hrc
  unfold updOut
  by_cases he : r = row ∧ c = col
  · rw [if_pos he]
  · rw [if_neg he]
    apply hz r c hc
    rcases hrc with h | ⟨hr, hc2⟩
    · exact Or.inl h
    · have : c ≠ col := fun hcc => he ⟨hr, hcc⟩
      exact Or.inr ⟨hr, by omega⟩

theorem zeroUpto_next_row {out : Nat → Nat → Nat} {W row : Nat}
    (h : ZeroUpto out W row W) : ZeroUpto out W (row + 1) 0 := by
  intro r c hc hrc
  apply h r c hc
  rcases hrc with h' | ⟨-, h0⟩
  · rcases Nat.lt_or_ge r row with h1 | h1
    · exact Or.inl h1
    · exact Or.inr ⟨by omega, hc⟩
  · omega

/-- The predictor reads only already-written neighbours (two columns or two
rows back), so on a zero-so-far buffer it predicts `0`. -/
theorem getPred_zeroUpto (out : Nat → Nat → Nat) (W row col : Nat)
    (hcol : col < W) (hz : ZeroUpto out W row col) :
    getPred out row col = 0 := by
  unfold getPred
  by_cases h1 : row < 2 ∧ col < 2
  · rw [if_pos h1]
  · rw [if_neg h1]
    by_cases h2 : row < 2
    · rw [if_pos h2]
      have := hz row (col - 2) (by omega) (Or.inr ⟨rfl, by omega⟩)
      rw [this]
      rfl
    · rw [if_neg h2]
      by_cases h3 : col < 2
      · rw [if_pos h3]
        have := hz (row - 2) col hcol (Or.inl (by omega))
        rw [this]
        rfl
      · rw [if_neg h3]
        have hL := hz row (col - 2) (by omega) (Or.inr ⟨rfl, by omega⟩)
        have hU := hz (row - 2) col hcol (Or.inl (by omega))
        have hLU := hz (row - 2) (col - 2) (by omega) (Or.inl (by omega))
        simp only [hL, hU, hLU]
        norm_num

theorem decodeSample_zero (out : Nat → Nat → Nat) (W L p row col : Nat)
    (k : Int) (hcol : col < W) (hz : ZeroUpto out W row col)
    (h31 : p + 31 ≤ L) :
    decodeSample out ⟨fun _ => false, L, p⟩ ⟨0, 0, k⟩ row col =
      .ok (updOut out row col 0, ⟨0, 0, k + 1⟩,
        ⟨fun _ => false, L, p + 31⟩) := by
  unfold decodeSample
  rw [parseCarry_zero L p k h31]
  simp only
  rw [getPred_zeroUpto out W row col hcol hz]
  norm_num

theorem decodeGroup_zero (out : Nat → Nat → Nat) (W L p row g : Nat)
    (kE kO : Int) (hcol : 2 * g + 1 < W) (hz : ZeroUpto out W row (2 * g))
    (hb : p + 62 ≤ L) :
    ∃ out2,
      decodeGroup row g ⟨out, ⟨fun _ => false, L, p⟩, ⟨0, 0, kE⟩, ⟨0, 0, kO⟩⟩ =
        .ok ⟨out2, ⟨fun _ => false, L, p + 62⟩, ⟨0, 0, kE + 1⟩, ⟨0, 0, kO + 1⟩⟩ ∧
      ZeroUpto out2 W row (2 * g + 2) := by
  refine ⟨updOut (updOut out row (2 * g) 0) row (2 * g + 1) 0, ?_, ?_⟩
  · unfold decodeGroup
    simp only
    rw [decodeSample_zero out W L p row (2 * g) kE (by omega) hz (by omega)]
    simp only
    rw [decodeSample_zero (updOut out row (2 * g) 0) W L (p + 31) row
      (2 * g + 1) kO hcol (zeroUpto_updOut hz) (by omega)]
  · have h1 := zeroUpto_updOut (zeroUpto_updOut hz)
    have : 2 * g + 1 + 1 = 2 * g + 2 := by omega
    rw [this] at h1
    exact h1

theorem rowGroups_zero (W L row : Nat) :
    ∀ (m g p : Nat) (out : Nat → Nat → Nat) (kE kO : Int),
      2 * (g + m) ≤ W → ZeroUpto out W row (2 * g) → p + 62 * m ≤ L →
      ∃ out',
        rowGroups row g m ⟨out, ⟨fun _ => false, L, p⟩, ⟨0, 0, kE⟩, ⟨0, 0, kO⟩⟩ =
          .ok ⟨out', ⟨fun _ => false, L, p + 62 * m⟩,
            ⟨0, 0, kE + (m : Int)⟩, ⟨0, 0, kO + (m : Int)⟩⟩ ∧
        ZeroUpto out' W row (2 * (g + m)) := by
  intro m
  induction m with
  | zero =>
    intro g p out kE kO hW hz hb
    refine ⟨out, ?_, by simpa using hz⟩
    unfold rowGroups
    norm_num
  | succ m ih =>
    intro g p out kE kO hW hz hb
    obtain ⟨out2, hgrp, hz2⟩ :=
      decodeGroup_zero out W L p row g kE kO (by omega) hz (by omega)
    obtain ⟨out', hloop, hz'⟩ := ih (g + 1) (p + 62) out2 (kE + 1) (kO + 1)
      (by omega) (by
        have : 2 * (g + 1) = 2 * g + 2 := by omega
        rw [this]
        exact hz2)
      (by omega)
    refine ⟨out', ?_, ?_⟩
    · unfold rowGroups
      rw [hgrp]
      simp only
      rw [hloop]
      have e1 : p + 62 + 62 * m = p + 62 * (m + 1) := by omega
      have e2 : kE + 1 + (m : Int) = kE + ((m + 1 : Nat) : Int) := by
        push_cast
        ring
      have e3 : kO + 1 + (m : Int) = kO + ((m + 1 : Nat) : Int) := by
        push_cast
        ring
      rw [e1, e2, e3]
    · have : g + 1 + m = g + (m + 1) := by omega
      rw [this] at hz'
      exact hz'

/-- `decompressRow` on the all-zero stream: all `W / 2` groups decode,
consuming `31 * W` bits, leaving both carries at `(0, 0, W / 2)` and the
row's cells all zero. -/
theorem decompressRow_zero (W L row p : Nat) (out : Nat → Nat → Nat)
    (hWe : W % 2 = 0) (hz : ZeroUpto out W row 0) (hb : p + 31 * W ≤ L) :
    ∃ out',
      decompressRow W row out ⟨fun _ => false, L, p⟩ =
        .ok ⟨out', ⟨fun _ => false, L, p + 31 * W⟩,
          ⟨0, 0, ((W / 2 : Nat) : Int)⟩, ⟨0, 0, ((W / 2 : Nat) : Int)⟩⟩ ∧
      ZeroUpto out' W (row + 1) 0 := by
  have h2 : 2 * (0 + W / 2) ≤ W := by omega
  have hb' : p + 62 * (W / 2) ≤ L := by omega
  obtain ⟨out', hloop, hz'⟩ :=
    rowGroups_zero W L row (W / 2) 0 p out 0 0 h2 (by simpa using hz) hb'
  refine ⟨out', ?_, ?_⟩
  · unfold decompressRow
    rw [hloop]
    have e1 : 62 * (W / 2) = 31 * W := by omega
    have e2 : (0 : Int) + ((W / 2 : Nat) : Int) = ((W / 2 : Nat) : Int) := by
      ring
    rw [e1, e2]
  · apply zeroUpto_next_row
    have : 2 * (0 + W / 2) = W := by omega
    rw [this] at hz'
    exact hz'

theorem rowsLoop_zero (W L : Nat) (hWe : W % 2 = 0) :
    ∀ (k row p : Nat) (out : Nat → Nat → Nat),
      ZeroUpto out W row 0 → p + 31 * W * k ≤ L →
      ∃ out',
        rowsLoop W row k out ⟨fun _ => false, L, p⟩ =
          .ok (out', ⟨fun _ => false, L, p + 31 * W * k⟩,
            List.replicate k (⟨0, 0, ((W / 2 : Nat) : Int)⟩,
              (⟨0, 0, ((W / 2 : Nat) : Int)⟩ : Carry))) ∧
        ZeroUpto out' W (row + k) 0 := by
  intro k
  induction k with
  | zero =>
    intro row p out hz hb
    refine ⟨out, ?_, by simpa using hz⟩
    unfold rowsLoop
    norm_num
  | succ k ih =>
    intro row p out hz hb
    have hmul : 31 * W * (k + 1) = 31 * W + 31 * W * k := by ring
    obtain ⟨out1, hrow, hz1⟩ := decompressRow_zero W L row p out hWe hz
      (by rw [hmul] at hb; omega)
    obtain ⟨out', hloop, hz'⟩ := ih (row + 1) (p + 31 * W) out1 hz1
      (by rw [hmul] at hb; omega)
    refine ⟨out', ?_, ?_⟩
    · unfold rowsLoop
      rw [hrow]
      simp only
      rw [hloop]
      simp only
      rw [← List.replicate_succ]
      have e : p + 31 * W + 31 * W * k = p + 31 * W * (k + 1) := by
        rw [hmul]
        omega
      rw [e]
    · have : row + 1 + k = row + (k + 1) := by omega
      rw [this] at hz'
      exact hz'

/-- The all-zero byte payload yields the all-zero bit stream. -/
theorem byteBits_zero : byteBits (fun _ => 0) = fun _ => false := by
  funext i
  unfold byteBits
  simp

/-- C6 (amended): for every valid Olympus image shape, decompressing an
input whose payload after the 7-byte prefix is an all-zero bit stream of
at least `4 * W * H` bytes (each of the `W * H` samples consumes 31 bits
of the stream, so `2 * W * H` bytes are not enough — see the
counterexample — while `4 * W * H` are) succeeds, writes `0` to every
cell of the output image, and ends every row with both column-parity
carry triples equal to `(0, 0, W / 2)`, where `W / 2 ≥ 3` as soon as each
parity gets at least 3 samples per row (`W ≥ 6`). -/
theorem olympus_decompress_zero (W H Lp : Nat) (out0 : Nat → Nat → Nat)
    (hW0 : 0 < W) (_hH0 : 0 < H) (hWe : W % 2 = 0) (hHe : H % 2 = 0)
    (hWc : W ≤ 10400) (_hHc : H ≤ 7792) (hlen : 4 * W * H ≤ Lp) :
    ∃ outF,
      olympusDecompress W H out0 (fun _ => 0) (7 + Lp) =
        .ok (outF, List.replicate H (⟨0, 0, ((W / 2 : Nat) : Int)⟩,
          (⟨0, 0, ((W / 2 : Nat) : Int)⟩ : Carry))) ∧
      (∀ r c, r < H → c < W → outF r c = 0) ∧
      (6 ≤ W → 3 ≤ ((W / 2 : Nat) : Int)) := by
  have hbits : 0 + 31 * W * H ≤ 8 * Lp := by
    have e31 : 31 * W * H = 31 * (W * H) := by ring
    have e4 : 4 * W * H = 4 * (W * H) := by ring
    rw [e4] at hlen
    rw [e31]
    omega
  have hz0 : ZeroUpto out0 W 0 0 := by
    intro r c hc hrc
    rcases hrc with h | ⟨-, h⟩ <;> omega
  obtain ⟨outF, hloop, hzF⟩ := rowsLoop_zero W (8 * Lp) hWe H 0 0 out0 hz0 hbits
  refine ⟨outF, ?_, ?_, ?_⟩
  · unfold olympusDecompress
    rw [if_neg (by omega)]
    have e : 7 + Lp - 7 = Lp := by omega
    rw [e]
    simp only [byteBits_zero]
    rw [hloop]
  · intro r c hr hc
    exact hzF r c hc (Or.inl (by omega))
  · intro h6
    have h3 : 3 ≤ W / 2 := by omega
    exact_mod_cast h3

/-- C6 amended witness: the minimal valid shape `W = H = 2` with a
`4 * W * H = 16`-byte zero payload decodes to the all-zero 2×2 image. -/
theorem olympus_decompress_zero_witness :
    ∃ outF,
      olympusDecompress 2 2 (fun _ _ => 0) (fun _ => 0) (7 + 16) =
        .ok (outF, List.replicate 2 ((⟨0, 0, ((2 / 2 : Nat) : Int)⟩ : Carry),
          (⟨0, 0, ((2 / 2 : Nat) : Int)⟩ : Carry))) ∧
      (∀ r c, r < 2 → c < 2 → outF r c = 0) ∧
      (6 ≤ 2 → 3 ≤ ((2 / 2 : Nat) : Int)) :=
  olympus_decompress_zero 2 2 16 (fun _ _ => 0) (by norm_num) (by norm_num)
    (by norm_num) (by norm_num) (by norm_num) (by norm_num) (by norm_num)

/-- `parseCarry` fails with `TruncatedBitstream` as soon as the initial
15-bit peek runs past the end of the stream. -/
theorem parseCarry_trunc (f : Nat → Bool) (L p : Nat) (c : Carry)
    (h : L < p + 15) :
    parseCarry ⟨f, L, p⟩ c = .error .TruncatedBitstream := by
  unfold parseCarry bsPeek
  simp only
  rw [if_neg (by omega)]

/-- C6 counterexample: with `W = H = 2` (a valid shape) and an all-zero
payload of exactly `W * H * 2 = 8` bytes after the prefix, the decode does
not succeed: each sample consumes 31 bits, the first row consumes 62 of
the available 64 bits, and the second row's first sample fails with
`TruncatedBitstream`. The claim's byte budget `W * H * 2` is therefore
insufficient. -/
theorem olympus_zero_2WH_counterexample :
    olympusDecompress 2 2 (fun _ _ => 0) (fun _ => 0) (7 + 2 * 2 * 2) =
      .error .TruncatedBitstream := by
  have hz0 : ZeroUpto (fun _ _ => (0 : Nat)) 2 0 0 := fun r c hc hrc => rfl
  obtain ⟨out1, hrow0, hz1⟩ :=
    decompressRow_zero 2 64 0 0 (fun _ _ => 0) rfl hz0 (by norm_num)
  norm_num at hrow0
  have hds : decodeSample out1 ⟨fun _ => false, 64, 62⟩ ⟨0, 0, 0⟩ 1 0 =
      .error .TruncatedBitstream := by
    unfold decodeSample
    rw [parseCarry_trunc (fun _ => false) 64 62 ⟨0, 0, 0⟩ (by norm_num)]
  have hdg : decodeGroup 1 0
      ⟨out1, ⟨fun _ => false, 64, 62⟩, ⟨0, 0, 0⟩, ⟨0, 0, 0⟩⟩ =
      .error .TruncatedBitstream := by
    unfold decodeGroup
    simp only
    rw [hds]
  have hrow1 : decompressRow 2 1 out1 ⟨fun _ => false, 64, 62⟩ =
      .error .TruncatedBitstream := by
    unfold decompressRow
    have stepg : rowGroups 1 0 (2 / 2)
        ⟨out1, ⟨fun _ => false, 64, 62⟩, ⟨0, 0, 0⟩, ⟨0, 0, 0⟩⟩ =
        match decodeGroup 1 0
            ⟨out1, ⟨fun _ => false, 64, 62⟩, ⟨0, 0, 0⟩, ⟨0, 0, 0⟩⟩ with
        | .error e => .error e
        | .ok st' => rowGroups 1 1 0 st' := rfl
    rw [stepg, hdg]
  have step1 : rowsLoop 2 0 2 (fun _ _ => (0 : Nat)) ⟨fun _ => false, 64, 0⟩ =
      match decompressRow 2 0 (fun _ _ => 0) ⟨fun _ => false, 64, 0⟩ with
      | .error e => .error e
      | .ok st =>
        match rowsLoop 2 1 1 st.out st.s with
        | .error e => .error e
        | .ok (outF, sF, rest) =>
          .ok (outF, sF, (st.carryEven, st.carryOdd) :: rest) := rfl
  have step2 : rowsLoop 2 1 1 out1 ⟨fun _ => false, 64, 62⟩ =
      match decompressRow 2 1 out1 ⟨fun _ => false, 64, 62⟩ with
      | .error e => .error e
      | .ok st =>
        match rowsLoop 2 2 0 st.out st.s with
        | .error e => .error e
        | .ok (outF, sF, rest) =>
          .ok (outF, sF, (st.carryEven, st.carryOdd) :: rest) := rfl
  unfold olympusDecompress
  rw [if_neg (by norm_num)]
  have e : 7 + 2 * 2 * 2 - 7 = 8 := by norm_num
  rw [e]
  simp only [byteBits_zero]
  have e8 : 8 * 8 = 64 := by norm_num
  rw [e8]
  rw [step1, hrow0]
  simp only
  rw [step2, hrow1]
